import Mathlib

/-!
Shallow embedding of the `realtime_fft` repository (Rust) and proofs about it.

The embedding covers:
* `src/fft.rs` — `FFTransformer` with its recursive in-place `basic_fft`,
  the public `fft` entry point and `normalise`.  `f64` complex arithmetic is
  modelled by exact complex numbers `ℂ`; `debug_assert!` failures are modelled
  as `Except.error` (assertions enabled, as under `cargo test`); the
  non-terminating recursion reached only on assertion-violating inputs is
  modelled as an `Except.error` as well.  Vector contents are modelled as
  total maps `ℕ → ℂ` together with explicit lengths, writes being
  `Function.update`; the public `fft` materialises its result as a `List ℂ`
  of the source-mandated length, exactly as the Rust function allocates and
  returns `transformed_xs`.
* `src/realtime_fft.rs` — the `SrcInfo` producer/consumer state
  (`push_callback_data`, the `reallocate_ring_buf` growth path), the
  `LatencyInfo` tracker, and `RealtimeFft` (`new`, `update`, `process_fft`).
  `Duration` is modelled as its exact Rust representation, an integer count
  of nanoseconds (`ℕ`); `Instant` as an integer nanosecond timestamp (`ℤ`),
  with the saturating subtraction `Instant::duration_since`;
  `Instant::now()` is an explicit parameter `now`; `Duration::as_secs`
  is truncating division by `10^9`.
  The external `realfft` planner executed on the success path of
  `process_fft` is a parameter `planner` of the model; the ring-buffer
  operations of the external `ringbuf` crate (`push_slice`, `discard`,
  `remaining`, `move_from`, `access`) are modelled by their documented
  queue semantics on the occupied region.
-/

/-- Rust `usize::is_power_of_two`. -/
def isPow2 : ℕ → Bool
  | 0 => false
  | 1 => true
  | n + 2 => decide ((n + 2) % 2 = 0) && isPow2 ((n + 2) / 2)
termination_by n => n
decreasing_by simp_wf; omega

/-- Contents of a Rust `Vec<Complex<f64>>`, as a total map from index to value. -/
abbrev CBuf := ℕ → ℂ

/-- Rust `enum Direction` from `src/fft.rs`. -/
inductive Direction
  | FORWARD
  | BACKWARD

/-- Rust `struct FFTransformer`: the lazily grown scratch buffer is its state. -/
structure FFTransformer where
  buffer : List ℂ

/-- State threaded through one iteration of the combine loop of `basic_fft`:
the `transformed_xs` vector, the scratch `self.buffer`, and `current_exp`. -/
structure CombineState where
  T : CBuf
  B : CBuf
  current_exp : ℂ

/-- One iteration (index `i`) of the combine loop of `basic_fft`
(`for i in 0..n / 2` in `src/fft.rs`), pointwise on the buffer maps. -/
def combineBody (exp : ℂ) (start step n : ℕ) (s : CombineState) (i : ℕ) : CombineState :=
  let even_term := if n / 4 ≤ i then s.B ((2 * i) % (n / 4))
    else s.T (start + step * (2 * i))
  let odd_term := if n / 4 ≤ i ∧ i < n / 2 - 1 then s.B ((2 * i + 1) % (n / 4)) * s.current_exp
    else s.T (start + step * (2 * i + 1)) * s.current_exp
  let B1 := Function.update s.B (i % (n / 4)) (s.T (start + step * (i + n / 2)))
  let T1 := Function.update (Function.update s.T (start + step * i) (even_term + odd_term))
    (start + step * (i + n / 2)) (even_term - odd_term)
  CombineState.mk T1 B1 (s.current_exp * exp)

/-- The combine loop of `basic_fft` after `i` iterations, starting from `s`. -/
def combineLoop (exp : ℂ) (start step n : ℕ) (s : CombineState) : ℕ → CombineState
  | 0 => s
  | i + 1 => combineBody exp start step n (combineLoop exp start step n s i) i

/-- Rust `FFTransformer::basic_fft`.  `xs` is the read-only input (length
`xsLen`), `T` is `transformed_xs`, `B` is `self.buffer`.  The leading
`debug_assert!` is modelled as an error result; the infinite recursion the
Rust code runs into for `n < 2` (reachable only when the assertion is
violated) is modelled as an error result as well. -/
def basic_fft (xs : CBuf) (xsLen : ℕ) (T B : CBuf) (exp : ℂ) (start step n : ℕ) :
    Except String (CBuf × CBuf) :=
  if ¬ (xsLen = xsLen ∧ isPow2 xsLen = true) then
    Except.error "assertion failed: buffer sizes equal and size a power of two"
  else if n = 2 then
    Except.ok (Function.update (Function.update T start (xs start + xs (start + step)))
      (start + step) (xs start - xs (start + step)), B)
  else if _h : n < 2 then
    Except.error "divergent recursion"
  else
    match basic_fft xs xsLen T B (exp * exp) start (step * 2) (n / 2) with
    | Except.error e => Except.error e
    | Except.ok (T1, B1) =>
      match basic_fft xs xsLen T1 B1 (exp * exp) (start + step) (step * 2) (n / 2) with
      | Except.error e => Except.error e
      | Except.ok (T2, B2) =>
        let s := combineLoop exp start step n (CombineState.mk T2 B2 1) (n / 2)
        Except.ok (s.T, s.B)
termination_by n
decreasing_by all_goals (simp_wf; omega)

/-- Rust `FFTransformer::fft`: checks `len > 1`, grows the scratch buffer to
`len / 4` if needed, picks the twiddle `from_polar(1, ±2π/len)`, allocates a
zeroed output vector and runs `basic_fft` over the whole input. -/
noncomputable def FFTransformer.fft (self : FFTransformer) (xs : List ℂ) (dir : Direction) :
    Except String (List ℂ × FFTransformer) :=
  let len := xs.length
  if ¬ len > 1 then Except.error "assertion failed: len greater than 1"
  else
    let buffer := if self.buffer.length < len / 4 then
        self.buffer ++ List.replicate (len / 4 - self.buffer.length) 0
      else self.buffer
    let angle : ℝ := 2 * Real.pi / (len : ℝ) * (match dir with
      | Direction.FORWARD => -1
      | Direction.BACKWARD => 1)
    let exp : ℂ := Complex.exp ((angle : ℂ) * Complex.I)
    match basic_fft (fun i => xs.getD i 0) len (fun _ => 0) (fun i => buffer.getD i 0)
        exp 0 1 len with
    | Except.error e => Except.error e
    | Except.ok (T, B) =>
      Except.ok ((List.range len).map T, FFTransformer.mk ((List.range buffer.length).map B))

/-- Rust `FFTransformer::normalise`: divide every element by the length. -/
noncomputable def FFTransformer.normalise (xs : List ℂ) : List ℂ :=
  xs.map (fun z => z / (xs.length : ℂ))

/-- The twiddle factor `from_polar(1.0, 2π/n * (∓1))` that `fft` feeds to
`basic_fft` (forward negative, inverse positive), as a named abbreviation of
the expression inlined in `fft`. -/
noncomputable def twiddle (n : ℕ) (dir : Direction) : ℂ :=
  Complex.exp (((2 * Real.pi / (n : ℝ) * (match dir with
    | Direction.FORWARD => -1
    | Direction.BACKWARD => 1) : ℝ) : ℂ) * Complex.I)

/-! ### The realtime engine (`src/realtime_fft.rs`) -/

/-- Rust `Instant`: a wall-clock timestamp in nanoseconds. -/
abbrev Instant := ℤ

/-- Rust `Duration`: a nonnegative span in nanoseconds. -/
abbrev Duration := ℕ

/-- Rust `Instant::duration_since` / `Instant - Instant` (saturating at zero). -/
def duration_since (a b : Instant) : Duration := (a - b).toNat

/-- Rust `Duration::as_secs`: whole seconds, truncating. -/
def as_secs (d : Duration) : ℕ := d / 1000000000

/-- Sample values (`f32` audio samples).  The modelled code only moves samples
around and never computes with them, so any value type with decidable
equality serves; `ℤ` keeps witnesses decidable. -/
abbrev Sample := ℤ

/-- The logical state of one `ringbuf` producer/consumer pair: the occupied
region (oldest sample first) and the capacity. -/
structure RingBuf where
  data : List Sample
  cap : ℕ

/-- Rust `ringbuf` occupancy (`Producer::len` / `Consumer::len`). -/
def RingBuf.len (rb : RingBuf) : ℕ := rb.data.length

/-- Rust `ringbuf` free space (`Producer::remaining`). -/
def RingBuf.remaining (rb : RingBuf) : ℕ := rb.cap - rb.len

/-- Rust `ringbuf` `Consumer::discard(n)`: drop up to `n` oldest unread samples. -/
def RingBuf.discard (rb : RingBuf) (n : ℕ) : RingBuf :=
  RingBuf.mk (rb.data.drop n) rb.cap

/-- Rust `ringbuf` `Producer::push_slice`: append as many leading elements of the
slice as fit into the free space. -/
def RingBuf.push_slice (rb : RingBuf) (d : List Sample) : RingBuf :=
  RingBuf.mk (rb.data ++ d.take rb.remaining) rb.cap

/-- Rust `reallocate_ring_buf` from `src/realtime_fft.rs`: a fresh buffer of
capacity `size`, into which `move_from(consumer, None)` moves as many unread
samples as fit (all of them, at every call site of this repository). -/
def reallocate_ring_buf (rb : RingBuf) (size : ℕ) : RingBuf :=
  RingBuf.mk (rb.data.take size) size

/-- Rust `struct LatencyInfo` from `src/realtime_fft.rs`. -/
structure LatencyInfo where
  sample_at_instant : Option (ℕ × Instant)
  max_latency : Option Duration

/-- Rust `struct SrcInfo`: the shared ring buffer and the latency tracker. -/
structure SrcInfo where
  rb : RingBuf
  latency_info : LatencyInfo

/-- Rust `SrcInfo::new`. -/
def SrcInfo.new (sample_buffer_size : ℕ) : SrcInfo :=
  SrcInfo.mk (RingBuf.mk [] sample_buffer_size) (LatencyInfo.mk none none)

/-- Rust `SrcInfo::push_callback_data`: grow if `data.len() +
sample_buffer_size` exceeds the capacity, discard the oldest samples if the
slice still does not fit, push the slice, then record `(len-after-push, now)`
and derive `max_latency` from the previously recorded instant. -/
def SrcInfo.push_callback_data (self : SrcInfo) (data : List Sample)
    (sample_buffer_size : ℕ) (now : Instant) : SrcInfo :=
  let rb1 := if data.length + sample_buffer_size > self.rb.cap then
      reallocate_ring_buf self.rb (data.length + sample_buffer_size)
    else self.rb
  let rb2 := if data.length > rb1.remaining then
      rb1.discard (data.length - rb1.remaining)
    else rb1
  let rb3 := rb2.push_slice data
  let prod_len := rb3.len
  let new_max_latency := (self.latency_info.sample_at_instant).map
    (fun p => duration_since now p.2)
  SrcInfo.mk rb3 (LatencyInfo.mk (some (prod_len, now)) new_max_latency)

/-- State of Rust `struct RealtimeFft`: the owned spectrum buffer
(`sliding_dft`), the shared source state, the window duration (field
`latency`) and the source sample rate. -/
structure RealtimeFftState where
  sliding_dft : List ℂ
  src : SrcInfo
  latency : Duration
  sample_rate : ℕ

/-- Rust `RealtimeFft::process_fft`: discard `window_start_sample` samples,
then, if a full window is available, read it zero-copy and overwrite the
spectrum with the planner's output for that window; otherwise leave the
spectrum untouched.  `planner` stands for the external `realfft`
real-to-complex transform executed on the success path. -/
def RealtimeFft.process_fft (planner : List Sample → List ℂ)
    (st : RealtimeFftState) (window_size window_start_sample : ℕ) : RealtimeFftState :=
  let cons := st.src.rb.discard window_start_sample
  let st1 := RealtimeFftState.mk st.sliding_dft (SrcInfo.mk cons st.src.latency_info)
    st.latency st.sample_rate
  if window_size > cons.len then st1
  else
    RealtimeFftState.mk (planner (cons.data.take window_size)) st1.src st1.latency
      st1.sample_rate

/-- The window start sample Rust `RealtimeFft::update` computes on its
success path:
`sample_at.checked_sub(((sample_instant - window_start_instant) * sample_rate).as_secs() as usize).unwrap_or(0)`
with `window_start_instant = now - src_latency - self.latency`; the
`checked_sub(..).unwrap_or(0)` is ℕ-subtraction. -/
def RealtimeFft.window_start_sample (st : RealtimeFftState) (now : Instant)
    (sample_at : ℕ) (sample_instant : Instant) (src_latency : Duration) : ℕ :=
  sample_at -
    as_secs (duration_since sample_instant (now - (src_latency : ℤ) - (st.latency : ℤ)) *
      st.sample_rate)

/-- Rust `RealtimeFft::update` at wall-clock `now`: bail out unless both
tracker fields are present, bail out on starvation, otherwise compute the
window start sample, decrement the tracked count by it (`*sample_at -=
window_start_sample`), and run `process_fft`. -/
def RealtimeFft.update (planner : List Sample → List ℂ) (now : Instant)
    (st : RealtimeFftState) : RealtimeFftState :=
  let window_size := (st.sliding_dft.length - 1) * 2
  match st.src.latency_info with
  | LatencyInfo.mk (some (sample_at, sample_instant)) (some src_latency) =>
    let window_end_instant := now - (src_latency : ℤ)
    if window_end_instant > sample_instant then st
    else
      let window_start_sample :=
        RealtimeFft.window_start_sample st now sample_at sample_instant src_latency
      let st1 := RealtimeFftState.mk st.sliding_dft
        (SrcInfo.mk st.src.rb
          (LatencyInfo.mk (some (sample_at - window_start_sample, sample_instant))
            (some src_latency)))
        st.latency st.sample_rate
      RealtimeFft.process_fft planner st1 window_size window_start_sample
  | _ => st

/-- The window size Rust `RealtimeFft::new` computes:
`(sample_rate as f64 * window_duration.as_secs_f64()) as usize` — in exact
arithmetic, `rate * nanos / 10^9` truncated. -/
def RealtimeFft.window_size_of (sample_rate : ℕ) (window_duration : Duration) : ℕ :=
  sample_rate * window_duration / 1000000000

/-- Rust `RealtimeFft::new`: allocates the spectrum with `window_size / 2 + 1`
zero bins, initialises the source with a buffer of `window_size * 2`
samples, and stores the window duration as the engine latency. -/
def RealtimeFft.new (sample_rate : ℕ) (window_duration : Duration) : RealtimeFftState :=
  let window_size := RealtimeFft.window_size_of sample_rate window_duration
  RealtimeFftState.mk (List.replicate (window_size / 2 + 1) 0)
    (SrcInfo.new (window_size * 2)) window_duration sample_rate


/-! ### Concrete fixtures used by witnesses and counterexamples -/

/-- A concrete planner (stand-in for the external `realfft` transform). -/
def planner0 : List Sample → List ℂ := fun _ => []

/-- A planner with the `realfft` output-length contract. -/
noncomputable def plannerHalf : List Sample → List ℂ :=
  fun w => List.replicate (w.length / 2 + 1) 0

/-- A concrete engine state: 2 spectrum bins (window size 2), 10 buffered
samples (capacity 20), tracker `(count 10, instant 100 ns)`, recorded
callback latency 0, window duration 1.7 s, sample rate 1 Hz. -/
noncomputable def st0 : RealtimeFftState :=
  RealtimeFftState.mk (List.replicate 2 0)
    (SrcInfo.mk (RingBuf.mk (List.replicate 10 0) 20)
      (LatencyInfo.mk (some (10, 100)) (some 0)))
    1700000000 1

/-- A concrete engine state whose latency tracker is still empty. -/
noncomputable def stEmpty : RealtimeFftState :=
  RealtimeFftState.mk (List.replicate 2 0) (SrcInfo.new 4) 1700000000 1


/-! ### Claim theorems -/

/-- Claim C7. After every `push_callback_data(data)`: the whole slice `data` is
appended; the capacity grows to `data.len() + sample_buffer_size` exactly
when that exceeds the old capacity (growth keeping every unread sample,
`hwf` being the ring-buffer occupancy invariant); when free space is
insufficient exactly the oldest `len + data.len() - cap` unread samples are
dropped; and the unread samples afterwards are the surviving old samples
followed by `data`, in order, with no duplication. -/
theorem C7_push_appends_preserving_order (st : SrcInfo) (data : List Sample)
    (sbs : ℕ) (now : Instant) (hwf : st.rb.data.length ≤ st.rb.cap) :
    (st.push_callback_data data sbs now).rb.cap =
      (if data.length + sbs > st.rb.cap then data.length + sbs else st.rb.cap) ∧
    st.rb.data.length + data.length -
        (st.push_callback_data data sbs now).rb.cap ≤ st.rb.data.length ∧
    (st.push_callback_data data sbs now).rb.data =
      st.rb.data.drop
        (st.rb.data.length + data.length - (st.push_callback_data data sbs now).rb.cap)
      ++ data := by
  rcases st with ⟨⟨old, cap0⟩, li⟩
  simp only [SrcInfo.push_callback_data, reallocate_ring_buf, RingBuf.push_slice,
    RingBuf.discard, RingBuf.remaining, RingBuf.len] at *
  by_cases hg : old.length + (data.length + sbs) ≤ cap0 + old.length
  · -- no growth: data.length + sbs ≤ cap0
    have hg' : ¬ data.length + sbs > cap0 := by omega
    simp only [if_neg hg']
    by_cases hd : data.length > cap0 - old.length
    · simp only [if_pos hd]
      have h1 : (old.drop (data.length - (cap0 - old.length))).length
          = old.length - (data.length - (cap0 - old.length)) := List.length_drop _ _
      have h2 : data.take (cap0 - (old.drop (data.length - (cap0 - old.length))).length)
          = data := by
        apply List.take_of_length_le
        rw [h1]; omega
      rw [h2]
      refine ⟨trivial, by omega, ?_⟩
      have h3 : data.length - (cap0 - old.length) = old.length + data.length - cap0 := by
        omega
      rw [h3]
    · simp only [if_neg hd]
      have h2 : data.take (cap0 - old.length) = data := by
        apply List.take_of_length_le; omega
      rw [h2]
      refine ⟨trivial, by omega, ?_⟩
      have h3 : old.length + data.length - cap0 = 0 := by omega
      rw [h3, List.drop_zero]
  · -- growth: data.length + sbs > cap0
    have hg' : data.length + sbs > cap0 := by omega
    simp only [if_pos hg']
    have htake : old.take (data.length + sbs) = old :=
      List.take_of_length_le (by omega)
    rw [htake]
    by_cases hd : data.length > data.length + sbs - old.length
    · simp only [if_pos hd]
      have h1 : (old.drop (data.length - (data.length + sbs - old.length))).length
          = old.length - (data.length - (data.length + sbs - old.length)) :=
        List.length_drop _ _
      have h2 : data.take (data.length + sbs -
          (old.drop (data.length - (data.length + sbs - old.length))).length) = data := by
        apply List.take_of_length_le
        rw [h1]; omega
      rw [h2]
      refine ⟨trivial, by omega, ?_⟩
      have h3 : data.length - (data.length + sbs - old.length)
          = old.length + data.length - (data.length + sbs) := by omega
      rw [h3]
    · simp only [if_neg hd]
      have h2 : data.take (data.length + sbs - old.length) = data := by
        apply List.take_of_length_le; omega
      rw [h2]
      refine ⟨trivial, by omega, ?_⟩
      have h3 : old.length + data.length - (data.length + sbs) = 0 := by omega
      rw [h3, List.drop_zero]

/-- Witness for C7 at a concrete input: two of four unread samples survive. -/
theorem C7_witness :
    (2 : ℕ) ≤ 3 ∧
    ((SrcInfo.mk (RingBuf.mk [1, 2] 3) (LatencyInfo.mk none none)).push_callback_data
        [5, 6] 0 0).rb.cap = (if 2 + 0 > 3 then 2 + 0 else 3) ∧
    (2 : ℕ) + 2 - ((SrcInfo.mk (RingBuf.mk [1, 2] 3)
        (LatencyInfo.mk none none)).push_callback_data [5, 6] 0 0).rb.cap ≤ 2 ∧
    ((SrcInfo.mk (RingBuf.mk [1, 2] 3) (LatencyInfo.mk none none)).push_callback_data
        [5, 6] 0 0).rb.data =
      [1, 2].drop (2 + 2 - ((SrcInfo.mk (RingBuf.mk [1, 2] 3)
        (LatencyInfo.mk none none)).push_callback_data [5, 6] 0 0).rb.cap) ++ [5, 6] := by
  refine ⟨by decide, ?_⟩
  exact C7_push_appends_preserving_order
    (SrcInfo.mk (RingBuf.mk [1, 2] 3) (LatencyInfo.mk none none)) [5, 6] 0 0 (by decide)

/-- Claim C8. Each record stores the latest `(count, instant)` pair, the count
being the occupancy immediately after the push (consistently); `max_latency`
is derived from the previously recorded instant (so it is `none` until a
second record exists and `now - previous_instant` afterwards); and the
estimate consumed by `update` yields a no-op until both fields are present. -/
theorem C8_latency_tracker_record :
    (∀ sbs : ℕ, (SrcInfo.new sbs).latency_info.sample_at_instant = none ∧
      (SrcInfo.new sbs).latency_info.max_latency = none) ∧
    (∀ (st : SrcInfo) (data : List Sample) (sbs : ℕ) (now : Instant),
      (st.push_callback_data data sbs now).latency_info.sample_at_instant =
        some ((st.push_callback_data data sbs now).rb.len, now) ∧
      (st.push_callback_data data sbs now).latency_info.max_latency =
        st.latency_info.sample_at_instant.map (fun p => duration_since now p.2)) ∧
    (∀ (planner : List Sample → List ℂ) (now : Instant) (st : RealtimeFftState),
      st.src.latency_info.max_latency = none → RealtimeFft.update planner now st = st) := by
  refine ⟨fun sbs => ⟨rfl, rfl⟩, fun st data sbs now => ⟨rfl, rfl⟩, ?_⟩
  intro planner now st h
  rcases st with ⟨dft, ⟨rb, ⟨sai, ml⟩⟩, lat, rate⟩
  cases ml with
  | none =>
    cases sai with
    | none => rfl
    | some p => rcases p with ⟨c, t⟩; rfl
  | some l => simp at h

/-- Witness for C8's conditional part at a concrete state. -/
theorem C8_witness :
    stEmpty.src.latency_info.max_latency = none ∧
    RealtimeFft.update planner0 0 stEmpty = stEmpty :=
  ⟨rfl, C8_latency_tracker_record.2.2 planner0 0 stEmpty rfl⟩

/-- Claim C3. Whenever latency information is incomplete, or the starvation
check fails (`window_end_instant` later than the recorded instant), or fewer
than `window_size` samples remain after the discard, `update` leaves the
spectrum buffer unchanged (and, the model being total, raises no error). -/
theorem C3_transient_cases_preserve_spectrum (planner : List Sample → List ℂ)
    (now : Instant) (st : RealtimeFftState)
    (h : ∀ c t l, st.src.latency_info = LatencyInfo.mk (some (c, t)) (some l) →
      now - (l : ℤ) > t ∨
      st.src.rb.data.length - RealtimeFft.window_start_sample st now c t l <
        (st.sliding_dft.length - 1) * 2) :
    (RealtimeFft.update planner now st).sliding_dft = st.sliding_dft := by
  rcases st with ⟨dft, ⟨rb, ⟨sai, ml⟩⟩, lat, rate⟩
  cases sai with
  | none => rfl
  | some p =>
    rcases p with ⟨c, t⟩
    cases ml with
    | none => rfl
    | some l =>
      rcases h c t l rfl with hstarv | hlen
      · simp only [RealtimeFft.update]
        rw [if_pos hstarv]
      · simp only [RealtimeFft.update]
        by_cases hs : now - (l : ℤ) > t
        · rw [if_pos hs]
        · rw [if_neg hs]
          simp only [RealtimeFft.process_fft, RingBuf.discard, RingBuf.len, List.length_drop]
          rw [if_pos hlen]

/-- Witness for C3 at a concrete state with an empty latency tracker. -/
theorem C3_witness :
    (∀ c t l, stEmpty.src.latency_info = LatencyInfo.mk (some (c, t)) (some l) →
      (0 : ℤ) - (l : ℤ) > t ∨
      stEmpty.src.rb.data.length - RealtimeFft.window_start_sample stEmpty 0 c t l <
        (stEmpty.sliding_dft.length - 1) * 2) ∧
    (RealtimeFft.update planner0 0 stEmpty).sliding_dft = stEmpty.sliding_dft := by
  have h : ∀ c t l, stEmpty.src.latency_info = LatencyInfo.mk (some (c, t)) (some l) →
      (0 : ℤ) - (l : ℤ) > t ∨
      stEmpty.src.rb.data.length - RealtimeFft.window_start_sample stEmpty 0 c t l <
        (stEmpty.sliding_dft.length - 1) * 2 := by
    intro c t l hc
    exact absurd hc (by simp [stEmpty, SrcInfo.new])
  exact ⟨h, C3_transient_cases_preserve_spectrum planner0 0 stEmpty h⟩

/-- Claim C6, counterexample. At the concrete state `st0` (tracker count 10),
`update` changes the latency tracker's recorded count (to 1): the claim that
all fields of the latency tracker are unchanged by every `update()` call is
false on the code (`*sample_at -= window_start_sample` in `update`). -/
theorem C6_counterexample :
    (RealtimeFft.update planner0 100 st0).src.latency_info.sample_at_instant ≠
      st0.src.latency_info.sample_at_instant := by decide

/-- Claim C6, amended. `update` never modifies the recorded instant or
`max_latency`, and the ring buffer's capacity and the samples' order are
untouched; but it decrements the recorded count by exactly the number of
samples it discards from the ring-buffer consumer (keeping count and
occupancy in sync): there is a single `k` with count' = count - k and
buffer' = buffer.drop k. -/
theorem C6_amended_tracker_sync (planner : List Sample → List ℂ) (now : Instant)
    (st : RealtimeFftState) :
    ∃ k : ℕ,
      (RealtimeFft.update planner now st).src.latency_info.max_latency =
        st.src.latency_info.max_latency ∧
      (RealtimeFft.update planner now st).src.latency_info.sample_at_instant =
        st.src.latency_info.sample_at_instant.map (fun p => (p.1 - k, p.2)) ∧
      (RealtimeFft.update planner now st).src.rb.data = st.src.rb.data.drop k ∧
      (RealtimeFft.update planner now st).src.rb.cap = st.src.rb.cap := by
  rcases st with ⟨dft, ⟨rb, ⟨sai, ml⟩⟩, lat, rate⟩
  cases sai with
  | none => exact ⟨0, rfl, rfl, (List.drop_zero _).symm, rfl⟩
  | some p =>
    rcases p with ⟨c, t⟩
    cases ml with
    | none => exact ⟨0, rfl, rfl, (List.drop_zero _).symm, rfl⟩
    | some l =>
      by_cases hs : now - (l : ℤ) > t
      · refine ⟨0, ?_⟩
        simp only [RealtimeFft.update]
        rw [if_pos hs]
        exact ⟨rfl, rfl, (List.drop_zero _).symm, rfl⟩
      · refine ⟨RealtimeFft.window_start_sample
          (RealtimeFftState.mk dft (SrcInfo.mk rb (LatencyInfo.mk (some (c, t)) (some l)))
            lat rate) now c t l, ?_⟩
        simp only [RealtimeFft.update]
        rw [if_neg hs]
        simp only [RealtimeFft.process_fft, RingBuf.discard, RingBuf.len]
        split
        · exact ⟨rfl, rfl, rfl, rfl⟩
        · exact ⟨rfl, rfl, rfl, rfl⟩

/-- Claim C2, counterexample. At the concrete state `st0` (tracker count 10,
instant 100 ns, recorded latency 0, window duration 1.7 s, sample rate 1 Hz,
10 buffered samples), calling `update` at `now = 100` discards 9 samples
(`as_secs` truncates `1.7` to `1`), while the claim's formula with rounding
predicts `saturating_sub(10, round(1.7 * 1)) = 8` discarded. -/
theorem C2_counterexample :
    (RealtimeFft.update planner0 100 st0).src.rb.data.length =
      st0.src.rb.data.length - 9 ∧
    10 - (round ((17 : ℚ) / 10 * 1)).toNat = 8 ∧
    (9 : ℕ) ≠ 8 := by
  have hr : round ((17 : ℚ) / 10 * 1) = 2 := by
    rw [show (17 : ℚ) / 10 * 1 = 17 / 10 by ring, round_eq, Int.floor_eq_iff]
    norm_num
  refine ⟨by decide, ?_, by decide⟩
  rw [hr]
  decide

/-- Claim C2, amended. With a recorded tracker state and a passing starvation
check, the window start sample equals
`saturating_sub(count, as_secs((instant - window_start_instant) * rate))` —
`as_secs` truncating to whole seconds, not rounding — and, provided at least
that many samples are buffered, exactly that many samples are discarded from
the ring-buffer consumer. -/
theorem C2_amended_window_start (planner : List Sample → List ℂ) (now : Instant)
    (st : RealtimeFftState) (c : ℕ) (t : Instant) (l : Duration)
    (hinfo : st.src.latency_info = LatencyInfo.mk (some (c, t)) (some l))
    (hstarv : ¬ now - (l : ℤ) > t)
    (havail : RealtimeFft.window_start_sample st now c t l ≤ st.src.rb.data.length) :
    RealtimeFft.window_start_sample st now c t l =
      c - as_secs (duration_since t (now - (l : ℤ) - (st.latency : ℤ)) * st.sample_rate) ∧
    (RealtimeFft.update planner now st).src.rb.data =
      st.src.rb.data.drop (RealtimeFft.window_start_sample st now c t l) ∧
    st.src.rb.data.length =
      (RealtimeFft.update planner now st).src.rb.data.length +
        RealtimeFft.window_start_sample st now c t l ∧
    (RealtimeFft.update planner now st).src.latency_info =
      LatencyInfo.mk (some (c - RealtimeFft.window_start_sample st now c t l, t)) (some l) := by
  rcases st with ⟨dft, ⟨rb, li⟩, lat, rate⟩
  simp only at hinfo
  subst hinfo
  simp only [RealtimeFft.update]
  rw [if_neg hstarv]
  simp only [RealtimeFft.process_fft, RingBuf.discard, RingBuf.len]
  simp only [RealtimeFft.window_start_sample] at *
  split
  · refine ⟨trivial, rfl, ?_, rfl⟩
    simp only [List.length_drop]
    omega
  · refine ⟨trivial, rfl, ?_, rfl⟩
    simp only [List.length_drop]
    omega

/-- Witness for C2 (amended) at the concrete state `st0` and `now = 100`. -/
theorem C2_witness :
    st0.src.latency_info = LatencyInfo.mk (some (10, 100)) (some 0) ∧
    ¬ (100 : ℤ) - ((0 : Duration) : ℤ) > (100 : ℤ) ∧
    RealtimeFft.window_start_sample st0 100 10 100 0 ≤ st0.src.rb.data.length ∧
    (RealtimeFft.update planner0 100 st0).src.rb.data =
      st0.src.rb.data.drop (RealtimeFft.window_start_sample st0 100 10 100 0) ∧
    st0.src.rb.data.length =
      (RealtimeFft.update planner0 100 st0).src.rb.data.length +
        RealtimeFft.window_start_sample st0 100 10 100 0 := by
  refine ⟨rfl, by decide, by decide, ?_, ?_⟩
  · exact (C2_amended_window_start planner0 100 st0 10 100 0 rfl (by decide) (by decide)).2.1
  · exact (C2_amended_window_start planner0 100 st0 10 100 0 rfl (by decide) (by decide)).2.2.1

/-- Claim C9, counterexample. `RealtimeFft::new` with sample rate 3 Hz and
window duration 1 s computes window size 3, which is not a power of two and
differs from `2 * (bins - 1)`; and with window duration 0.5 s it computes
window size 1 where rounding would give 2: the construction truncates and
enforces no power-of-two constraint. -/
theorem C9_counterexample :
    RealtimeFft.window_size_of 3 1000000000 = 3 ∧
    isPow2 (RealtimeFft.window_size_of 3 1000000000) = false ∧
    2 * ((RealtimeFft.new 3 1000000000).sliding_dft.length - 1) ≠
      RealtimeFft.window_size_of 3 1000000000 ∧
    RealtimeFft.window_size_of 3 500000000 = 1 ∧
    round ((3 : ℚ) * (1 / 2)) = 2 ∧
    (1 : ℕ) ≠ 2 := by
  refine ⟨by decide, ?_, ?_, by decide, ?_, by decide⟩
  · show isPow2 3 = false
    simp [isPow2]
  · show 2 * ((List.replicate (3 / 2 + 1) (0 : ℂ)).length - 1) ≠ 3
    simp
  · rw [round_eq, Int.floor_eq_iff]
    norm_num

/-- Claim C9, amended. The window size fixed at construction is
`window_duration × sample_rate` truncated; the owned spectrum buffer is
allocated at construction with exactly `window_size / 2 + 1` complex bins;
and the spectrum length is preserved by every `update` (for any planner
honouring the `realfft` output-length contract and any state with a
nonempty spectrum buffer, as every constructed engine has). -/
theorem C9_amended_bins (sample_rate : ℕ) (window_duration : Duration)
    (planner : List Sample → List ℂ) (now : Instant) (st : RealtimeFftState)
    (hp : ∀ w, (planner w).length = w.length / 2 + 1)
    (hnz : 1 ≤ st.sliding_dft.length) :
    (RealtimeFft.new sample_rate window_duration).sliding_dft.length =
      RealtimeFft.window_size_of sample_rate window_duration / 2 + 1 ∧
    (RealtimeFft.update planner now st).sliding_dft.length = st.sliding_dft.length := by
  constructor
  · simp [RealtimeFft.new]
  · rcases st with ⟨dft, ⟨rb, ⟨sai, ml⟩⟩, lat, rate⟩
    cases sai with
    | none => rfl
    | some p =>
      rcases p with ⟨c, t⟩
      cases ml with
      | none => rfl
      | some l =>
        simp only [RealtimeFft.update]
        by_cases hs : now - (l : ℤ) > t
        · rw [if_pos hs]
        · rw [if_neg hs]
          simp only [RealtimeFft.process_fft, RingBuf.discard, RingBuf.len]
          split
          · rfl
          · next hw =>
            simp only at hw ⊢
            rw [hp]
            rw [List.length_take]
            simp only [List.length_drop] at hw ⊢
            rw [Nat.min_def]
            simp only at hnz
            split
            · omega
            · omega

/-- Witness for C9 (amended): a 2-bin engine constructed at 2 Hz with a 1 s
window, updated with a length-contract-honouring planner. -/
theorem C9_witness :
    (∀ w : List Sample, (plannerHalf w).length = w.length / 2 + 1) ∧
    1 ≤ (RealtimeFft.new 2 1000000000).sliding_dft.length ∧
    (RealtimeFft.new 2 1000000000).sliding_dft.length =
      RealtimeFft.window_size_of 2 1000000000 / 2 + 1 ∧
    (RealtimeFft.update plannerHalf 0
        (RealtimeFft.new 2 1000000000)).sliding_dft.length =
      (RealtimeFft.new 2 1000000000).sliding_dft.length := by
  have hp : ∀ w : List Sample, (plannerHalf w).length = w.length / 2 + 1 := by
    intro w; simp [plannerHalf]
  have hnz : 1 ≤ (RealtimeFft.new 2 1000000000).sliding_dft.length := by decide
  have h := C9_amended_bins 2 1000000000 plannerHalf 0 (RealtimeFft.new 2 1000000000) hp hnz
  exact ⟨hp, hnz, h.1, h.2⟩

/-- Claim C4. Calling `fft` with an input whose length is not a power of two or
is ≤ 1 yields an explicit assertion error surfaced to the caller; no normal
result is ever returned (`debug_assert!` modelled as enabled). -/
theorem C4_contract_violation_error (self : FFTransformer) (xs : List ℂ) (dir : Direction)
    (h : isPow2 xs.length = false ∨ xs.length ≤ 1) :
    ∃ e, FFTransformer.fft self xs dir = Except.error e := by
  by_cases hl : xs.length > 1
  · have hp : isPow2 xs.length = false := by
      rcases h with hp | hle
      · exact hp
      · omega
    simp only [FFTransformer.fft]
    rw [if_neg (not_not_intro hl)]
    rw [show basic_fft (fun i => xs.getD i 0) xs.length (fun _ => 0) _ _ 0 1 xs.length =
        Except.error "assertion failed: buffer sizes equal and size a power of two" from ?_]
    · exact ⟨_, rfl⟩
    · rw [basic_fft]
      rw [if_pos]
      intro hc
      rw [hp] at hc
      exact Bool.false_ne_true hc.2
  · simp only [FFTransformer.fft]
    rw [if_pos hl]
    exact ⟨_, rfl⟩

/-- Witness for C4: length 3 is not a power of two, and the call errors. -/
theorem C4_witness :
    (isPow2 ([1, 2, 3] : List ℂ).length = false ∨ ([1, 2, 3] : List ℂ).length ≤ 1) ∧
    ∃ e, FFTransformer.fft (FFTransformer.mk []) [1, 2, 3] Direction.FORWARD =
      Except.error e := by
  have h : isPow2 ([1, 2, 3] : List ℂ).length = false ∨ ([1, 2, 3] : List ℂ).length ≤ 1 := by
    left
    show isPow2 3 = false
    simp [isPow2]
  exact ⟨h, C4_contract_violation_error (FFTransformer.mk []) [1, 2, 3] Direction.FORWARD h⟩

/-- Claim C10. On every successful call, `fft` returns a freshly built output
vector of the same length as the input; the input, taken by immutable
reference in the source and modelled as a read-only map here, is never
written. -/
theorem C10_fft_output_length (self : FFTransformer) (xs : List ℂ) (dir : Direction)
    (out : List ℂ) (self2 : FFTransformer)
    (h : FFTransformer.fft self xs dir = Except.ok (out, self2)) :
    out.length = xs.length := by
  simp only [FFTransformer.fft] at h
  split at h
  · exact absurd h (by simp)
  · split at h
    · exact absurd h (by simp)
    · rw [Except.ok.injEq, Prod.mk.injEq] at h
      rw [← h.1]
      simp

/-- Every slot of the scratch buffer that the combine loop reads was written
at an earlier iteration of the same loop, so the whole loop state except the
slots not yet written is independent of the initial scratch contents. -/
theorem combineLoop_buffer_irrelevant (exp : ℂ) (start step n : ℕ) (h4 : 1 ≤ n / 4)
    (T : CBuf) (cur : ℂ) (B1 B2 : CBuf) :
    ∀ k,
      (combineLoop exp start step n (CombineState.mk T B1 cur) k).T =
        (combineLoop exp start step n (CombineState.mk T B2 cur) k).T ∧
      (combineLoop exp start step n (CombineState.mk T B1 cur) k).current_exp =
        (combineLoop exp start step n (CombineState.mk T B2 cur) k).current_exp ∧
      ∀ s, s < min k (n / 4) →
        (combineLoop exp start step n (CombineState.mk T B1 cur) k).B s =
          (combineLoop exp start step n (CombineState.mk T B2 cur) k).B s := by
  intro k
  induction k with
  | zero => exact ⟨rfl, rfl, fun s hs => absurd hs (by simp)⟩
  | succ k IH =>
    obtain ⟨hT, hcur, hB⟩ := IH
    have heven : (if n / 4 ≤ k then
          (combineLoop exp start step n (CombineState.mk T B1 cur) k).B ((2 * k) % (n / 4))
        else (combineLoop exp start step n (CombineState.mk T B1 cur) k).T
          (start + step * (2 * k)))
        = (if n / 4 ≤ k then
          (combineLoop exp start step n (CombineState.mk T B2 cur) k).B ((2 * k) % (n / 4))
        else (combineLoop exp start step n (CombineState.mk T B2 cur) k).T
          (start + step * (2 * k))) := by
      split
      · next hk =>
        apply hB
        rw [min_eq_right hk]
        exact Nat.mod_lt _ (by omega)
      · rw [hT]
    have hodd : (if n / 4 ≤ k ∧ k < n / 2 - 1 then
          (combineLoop exp start step n (CombineState.mk T B1 cur) k).B ((2 * k + 1) % (n / 4)) *
            (combineLoop exp start step n (CombineState.mk T B1 cur) k).current_exp
        else (combineLoop exp start step n (CombineState.mk T B1 cur) k).T
            (start + step * (2 * k + 1)) *
            (combineLoop exp start step n (CombineState.mk T B1 cur) k).current_exp)
        = (if n / 4 ≤ k ∧ k < n / 2 - 1 then
          (combineLoop exp start step n (CombineState.mk T B2 cur) k).B ((2 * k + 1) % (n / 4)) *
            (combineLoop exp start step n (CombineState.mk T B2 cur) k).current_exp
        else (combineLoop exp start step n (CombineState.mk T B2 cur) k).T
            (start + step * (2 * k + 1)) *
            (combineLoop exp start step n (CombineState.mk T B2 cur) k).current_exp) := by
      split
      · next hk =>
        rw [hcur, hB]
        rw [min_eq_right hk.1]
        exact Nat.mod_lt _ (by omega)
      · rw [hT, hcur]
    refine ⟨?_, ?_, ?_⟩
    · simp only [combineLoop, combineBody]
      rw [heven, hodd, hT]
    · simp only [combineLoop, combineBody]
      rw [hcur]
    · intro s hs
      simp only [combineLoop, combineBody]
      by_cases hsk : s = k % (n / 4)
      · subst hsk
        rw [Function.update_same, Function.update_same, hT]
      · rw [Function.update_noteq hsk, Function.update_noteq hsk]
        apply hB
        rw [lt_min_iff] at hs ⊢
        by_cases hk : k < n / 4
        · rw [Nat.mod_eq_of_lt hk] at hsk
          omega
        · omega

/-- Running `basic_fft` with `n < 2` always yields an error (the assertion fails or
the Rust recursion diverges). -/
theorem basic_fft_small_err (xs : CBuf) (xsLen : ℕ) (T B : CBuf) (exp : ℂ)
    (start step n : ℕ) (hn : n < 2) :
    ∃ e, basic_fft xs xsLen T B exp start step n = Except.error e := by
  rw [basic_fft]
  by_cases h1 : ¬ (xsLen = xsLen ∧ isPow2 xsLen = true)
  · rw [if_pos h1]
    exact ⟨_, rfl⟩
  · rw [if_neg h1, if_neg (by omega : ¬ n = 2), dif_pos hn]
    exact ⟨_, rfl⟩

/-- The transformed output of `basic_fft` (and its error behaviour) is
independent of the initial contents of the scratch buffer; the scratch
contents agree afterwards on the `n / 4` slots the call owns. -/
theorem basic_fft_buffer_irrelevant (xs : CBuf) (xsLen : ℕ) :
    ∀ (n : ℕ) (exp : ℂ) (start step : ℕ) (T B1 B2 : CBuf),
      ((basic_fft xs xsLen T B1 exp start step n).map Prod.fst =
        (basic_fft xs xsLen T B2 exp start step n).map Prod.fst) ∧
      (∀ Ta Ca Tb Cb,
        basic_fft xs xsLen T B1 exp start step n = Except.ok (Ta, Ca) →
        basic_fft xs xsLen T B2 exp start step n = Except.ok (Tb, Cb) →
        ∀ s, s < n / 4 → Ca s = Cb s) := by
  intro n
  induction n using Nat.strong_induction_on with
  | _ n IH =>
    intro exp start step T B1 B2
    have h1 := basic_fft.eq_def xs xsLen T B1 exp start step n
    have h2 := basic_fft.eq_def xs xsLen T B2 exp start step n
    by_cases hassert : ¬ (xsLen = xsLen ∧ isPow2 xsLen = true)
    · rw [if_pos hassert] at h1 h2
      rw [h1, h2]
      exact ⟨rfl, fun Ta Ca Tb Cb ha hb s hs => absurd ha (by simp)⟩
    · rw [if_neg hassert] at h1 h2
      by_cases h2n : n = 2
      · rw [if_pos h2n] at h1 h2
        rw [h1, h2]
        refine ⟨rfl, fun Ta Ca Tb Cb ha hb s hs => ?_⟩
        subst h2n
        exact absurd hs (by simp)
      · rw [if_neg h2n] at h1 h2
        by_cases hlt : n < 2
        · rw [dif_pos hlt] at h1 h2
          rw [h1, h2]
          exact ⟨rfl, fun Ta Ca Tb Cb ha hb s hs => absurd ha (by simp)⟩
        · rw [dif_neg hlt] at h1 h2
          obtain ⟨ih1map, ih1ok⟩ :=
            IH (n / 2) (by omega) (exp * exp) start (step * 2) T B1 B2
          cases hr1 : basic_fft xs xsLen T B1 (exp * exp) start (step * 2) (n / 2) with
          | error e =>
            have hr2 : basic_fft xs xsLen T B2 (exp * exp) start (step * 2) (n / 2)
                = Except.error e := by
              rw [hr1] at ih1map
              cases hr2 : basic_fft xs xsLen T B2 (exp * exp) start (step * 2) (n / 2) with
              | error e2 => rw [hr2] at ih1map; simp [Except.map] at ih1map; rw [ih1map]
              | ok v => rw [hr2] at ih1map; simp [Except.map] at ih1map
            rw [hr1] at h1
            rw [hr2] at h2
            dsimp only at h1 h2
            rw [h1, h2]
            exact ⟨rfl, fun Ta Ca Tb Cb ha hb s hs => absurd ha (by simp)⟩
          | ok v1 =>
            obtain ⟨T1a, B1a⟩ := v1
            cases hr2 : basic_fft xs xsLen T B2 (exp * exp) start (step * 2) (n / 2) with
            | error e =>
              rw [hr1, hr2] at ih1map
              simp [Except.map] at ih1map
            | ok v2 =>
              obtain ⟨T2a, B2a⟩ := v2
              have hTa : T1a = T2a := by
                rw [hr1, hr2] at ih1map
                simpa [Except.map] using ih1map
              subst hTa
              rw [hr1] at h1
              rw [hr2] at h2
              dsimp only at h1 h2
              -- the two sub-calls succeeded, so n / 2 ≥ 2, hence n ≥ 4
              have hn4 : 1 ≤ n / 4 := by
                by_contra hc
                have hsmall : n / 2 < 2 := by omega
                obtain ⟨e, he⟩ := basic_fft_small_err xs xsLen T B1 (exp * exp)
                  start (step * 2) (n / 2) hsmall
                rw [he] at hr1
                exact absurd hr1 (by simp)
              obtain ⟨ih2map, ih2ok⟩ :=
                IH (n / 2) (by omega) (exp * exp) (start + step) (step * 2) T1a B1a B2a
              cases hs1 : basic_fft xs xsLen T1a B1a (exp * exp) (start + step) (step * 2)
                  (n / 2) with
              | error e =>
                have hs2 : basic_fft xs xsLen T1a B2a (exp * exp) (start + step) (step * 2)
                    (n / 2) = Except.error e := by
                  rw [hs1] at ih2map
                  cases hs2 : basic_fft xs xsLen T1a B2a (exp * exp) (start + step) (step * 2)
                      (n / 2) with
                  | error e2 => rw [hs2] at ih2map; simp [Except.map] at ih2map; rw [ih2map]
                  | ok v => rw [hs2] at ih2map; simp [Except.map] at ih2map
                rw [hs1] at h1
                rw [hs2] at h2
                dsimp only at h1 h2
                rw [h1, h2]
                exact ⟨rfl, fun Ta Ca Tb Cb ha hb s hs => absurd ha (by simp)⟩
              | ok w1 =>
                obtain ⟨T1b, B1b⟩ := w1
                cases hs2 : basic_fft xs xsLen T1a B2a (exp * exp) (start + step) (step * 2)
                    (n / 2) with
                | error e =>
                  rw [hs1, hs2] at ih2map
                  simp [Except.map] at ih2map
                | ok w2 =>
                  obtain ⟨T2b, B2b⟩ := w2
                  have hTb : T1b = T2b := by
                    rw [hs1, hs2] at ih2map
                    simpa [Except.map] using ih2map
                  subst hTb
                  rw [hs1] at h1
                  rw [hs2] at h2
                  dsimp only at h1 h2
                  obtain ⟨hLT, hLcur, hLB⟩ := combineLoop_buffer_irrelevant exp start step n
                    hn4 T1b 1 B1b B2b (n / 2)
                  constructor
                  · rw [h1, h2]
                    simp only [Except.map]
                    rw [hLT]
                  · intro Ta Ca Tb Cb ha hb s hs
                    rw [h1, Except.ok.injEq, Prod.mk.injEq] at ha
                    rw [h2, Except.ok.injEq, Prod.mk.injEq] at hb
                    rw [← ha.2, ← hb.2]
                    refine hLB s ?_
                    rw [lt_min_iff]
                    omega

/-- The wrapper of `fft` around `basic_fft` preserves first-component
determinism, whatever transformer states the two runs rebuild. -/
theorem fft_wrap_deterministic (r1 r2 : Except String (CBuf × CBuf)) (L : ℕ)
    (f g : CBuf → FFTransformer)
    (hmap : r1.map Prod.fst = r2.map Prod.fst) :
    (match r1 with
      | Except.error e => Except.error e
      | Except.ok (T, B) => Except.ok ((List.range L).map T, f B)).map Prod.fst =
    (match r2 with
      | Except.error e => Except.error e
      | Except.ok (T, B) => Except.ok ((List.range L).map T, g B)).map Prod.fst := by
  cases r1 with
  | error e =>
    cases r2 with
    | error e2 =>
      simp [Except.map] at hmap ⊢
      exact hmap
    | ok v => simp [Except.map] at hmap
  | ok v =>
    cases r2 with
    | error e2 => simp [Except.map] at hmap
    | ok v2 =>
      obtain ⟨T1, C1⟩ := v
      obtain ⟨T2, C2⟩ := v2
      simp [Except.map] at hmap ⊢
      intro a _
      rw [hmap]

/-- Claim C5. `fft` is deterministic across transformer states: two calls with
identical `(input, direction)` return identical output vectors no matter
what the scratch buffers hold from earlier calls (every scratch slot read by
the combine loop was written earlier in the same call). -/
theorem C5_fft_deterministic (s1 s2 : FFTransformer) (xs : List ℂ) (dir : Direction) :
    (FFTransformer.fft s1 xs dir).map Prod.fst =
      (FFTransformer.fft s2 xs dir).map Prod.fst := by
  simp only [FFTransformer.fft]
  by_cases hl : ¬ xs.length > 1
  · rw [if_pos hl, if_pos hl]
  · rw [if_neg hl, if_neg hl]
    apply fft_wrap_deterministic
    exact (basic_fft_buffer_irrelevant _ _ _ _ _ _ _ _ _).1

/-- Witness for C10: a successful length-2 call, output length preserved. -/
theorem C10_witness :
    FFTransformer.fft (FFTransformer.mk []) [1, 0] Direction.FORWARD =
      Except.ok ([1, 1], FFTransformer.mk []) ∧
    ([1, 1] : List ℂ).length = ([1, 0] : List ℂ).length := by
  have h : FFTransformer.fft (FFTransformer.mk []) [1, 0] Direction.FORWARD =
      Except.ok ([1, 1], FFTransformer.mk []) := by
    simp [FFTransformer.fft, basic_fft, isPow2, Function.update, List.getD, List.range_succ]
  exact ⟨h, C10_fft_output_length (FFTransformer.mk []) [1, 0] Direction.FORWARD [1, 1]
    (FFTransformer.mk []) h⟩

/-- Strided indices are injective for positive strides. -/
theorem index_inj (start step a b : ℕ) (hstep : 1 ≤ step)
    (h : start + step * a = start + step * b) : a = b := by
  have h2 : step * a = step * b := by omega
  exact Nat.eq_of_mul_eq_mul_left (by omega) h2

/-- Distinct butterfly positions occupy distinct strided indices. -/
theorem index_ne (start step a b : ℕ) (hstep : 1 ≤ step) (h : a ≠ b) :
    start + step * a ≠ start + step * b :=
  fun hc => h (index_inj start step a b hstep hc)

/-- Full characterisation of the combine loop of `basic_fft` on a stride of
length `4 * n4`: after `i` iterations the first `i` butterfly pairs hold
`even ± odd * exp^j` of the pre-loop values, every untouched position keeps
its pre-loop value, and every scratch slot holds the pre-loop value it
staged, so the `self.buffer` staging trick loses nothing. -/
theorem combineLoop_spec (exp : ℂ) (start step n4 : ℕ) (hstep : 1 ≤ step) (hn4 : 1 ≤ n4)
    (T0 B0 : CBuf) :
    ∀ i, i ≤ 2 * n4 →
      (combineLoop exp start step (4 * n4) (CombineState.mk T0 B0 1) i).current_exp
        = exp ^ i ∧
      (∀ j, j < i →
        (combineLoop exp start step (4 * n4) (CombineState.mk T0 B0 1) i).T
            (start + step * j)
          = T0 (start + step * (2 * j)) + T0 (start + step * (2 * j + 1)) * exp ^ j ∧
        (combineLoop exp start step (4 * n4) (CombineState.mk T0 B0 1) i).T
            (start + step * (j + 2 * n4))
          = T0 (start + step * (2 * j)) - T0 (start + step * (2 * j + 1)) * exp ^ j) ∧
      (∀ p, i ≤ p → p < 2 * n4 →
        (combineLoop exp start step (4 * n4) (CombineState.mk T0 B0 1) i).T
          (start + step * p) = T0 (start + step * p)) ∧
      (∀ p, 2 * n4 + i ≤ p → p < 4 * n4 →
        (combineLoop exp start step (4 * n4) (CombineState.mk T0 B0 1) i).T
          (start + step * p) = T0 (start + step * p)) ∧
      (∀ q, (∀ j, j < 4 * n4 → q ≠ start + step * j) →
        (combineLoop exp start step (4 * n4) (CombineState.mk T0 B0 1) i).T q = T0 q) ∧
      (∀ s, s < n4 →
        (s + n4 < i →
          (combineLoop exp start step (4 * n4) (CombineState.mk T0 B0 1) i).B s
            = T0 (start + step * (s + n4 + 2 * n4))) ∧
        (s < i → ¬ s + n4 < i →
          (combineLoop exp start step (4 * n4) (CombineState.mk T0 B0 1) i).B s
            = T0 (start + step * (s + 2 * n4)))) := by
  intro i
  induction i with
  | zero =>
    intro _
    exact ⟨(pow_zero exp).symm, fun j hj => absurd hj (by omega),
      fun p _ _ => rfl, fun p _ _ => rfl, fun q _ => rfl,
      fun s hs => ⟨fun h => absurd h (by omega), fun h _ => absurd h (by omega)⟩⟩
  | succ i IHi =>
    intro hi1
    have hi : i ≤ 2 * n4 := by omega
    obtain ⟨hcur, hdone, hpend1, hpend2, hframe, hbuf⟩ := IHi hi
    set S := combineLoop exp start step (4 * n4) (CombineState.mk T0 B0 1) i with hS
    have hnn4 : 4 * n4 / 4 = n4 := by omega
    have hn2 : 4 * n4 / 2 = 2 * n4 := by omega
    have heven : (if n4 ≤ i then S.B ((2 * i) % n4)
        else S.T (start + step * (2 * i))) = T0 (start + step * (2 * i)) := by
      by_cases hc : n4 ≤ i
      · rw [if_pos hc]
        by_cases hsm : 2 * i < 3 * n4
        · have hmod : (2 * i) % n4 = 2 * i - 2 * n4 := by
            rw [show 2 * i = (2 * i - 2 * n4) + n4 * 2 from by omega,
              Nat.add_mul_mod_self_left, Nat.mod_eq_of_lt (by omega)]; omega
          rw [hmod]
          have hb := (hbuf (2 * i - 2 * n4) (by omega)).2 (by omega) (by omega)
          rw [show 2 * i - 2 * n4 + 2 * n4 = 2 * i from by omega] at hb
          exact hb
        · have hmod : (2 * i) % n4 = 2 * i - 3 * n4 := by
            rw [show 2 * i = (2 * i - 3 * n4) + n4 * 3 from by omega,
              Nat.add_mul_mod_self_left, Nat.mod_eq_of_lt (by omega)]; omega
          rw [hmod]
          have hb := (hbuf (2 * i - 3 * n4) (by omega)).1 (by omega)
          rw [show 2 * i - 3 * n4 + n4 + 2 * n4 = 2 * i from by omega] at hb
          exact hb
      · rw [if_neg hc]
        exact hpend1 (2 * i) (by omega) (by omega)
    have hodd : (if n4 ≤ i ∧ i < 2 * n4 - 1 then S.B ((2 * i + 1) % n4) * S.current_exp
        else S.T (start + step * (2 * i + 1)) * S.current_exp)
        = T0 (start + step * (2 * i + 1)) * exp ^ i := by
      rw [hcur]
      by_cases hc : n4 ≤ i ∧ i < 2 * n4 - 1
      · rw [if_pos hc]
        obtain ⟨hc1, hc2⟩ := hc
        by_cases hsm : 2 * i + 1 < 3 * n4
        · have hmod : (2 * i + 1) % n4 = 2 * i + 1 - 2 * n4 := by
            rw [show 2 * i + 1 = (2 * i + 1 - 2 * n4) + n4 * 2 from by omega,
              Nat.add_mul_mod_self_left, Nat.mod_eq_of_lt (by omega)]; omega
          rw [hmod]
          have hb := (hbuf (2 * i + 1 - 2 * n4) (by omega)).2 (by omega) (by omega)
          rw [show 2 * i + 1 - 2 * n4 + 2 * n4 = 2 * i + 1 from by omega] at hb
          rw [hb]
        · have hmod : (2 * i + 1) % n4 = 2 * i + 1 - 3 * n4 := by
            rw [show 2 * i + 1 = (2 * i + 1 - 3 * n4) + n4 * 3 from by omega,
              Nat.add_mul_mod_self_left, Nat.mod_eq_of_lt (by omega)]; omega
          rw [hmod]
          have hb := (hbuf (2 * i + 1 - 3 * n4) (by omega)).1 (by omega)
          rw [show 2 * i + 1 - 3 * n4 + n4 + 2 * n4 = 2 * i + 1 from by omega] at hb
          rw [hb]
      · rw [if_neg hc]
        by_cases hlow : i < n4
        · rw [hpend1 (2 * i + 1) (by omega) (by omega)]
        · rw [hpend2 (2 * i + 1) (by omega) (by omega)]
    have hsave : S.T (start + step * (i + 2 * n4)) = T0 (start + step * (i + 2 * n4)) :=
      hpend2 (i + 2 * n4) (by omega) (by omega)
    refine ⟨?_, ?_, ?_, ?_, ?_, ?_⟩
    · simp only [combineLoop, combineBody, ← hS, hnn4, hn2]
      rw [hcur, pow_succ]
    · intro j hj
      simp only [combineLoop, combineBody, ← hS, hnn4, hn2]
      by_cases hji : j = i
      · subst hji
        constructor
        · rw [Function.update_noteq (index_ne start step j (j + 2 * n4) hstep (by omega)),
            Function.update_same, heven, hodd]
        · rw [Function.update_same, heven, hodd]
      · have hj' : j < i := by omega
        constructor
        · rw [Function.update_noteq (index_ne start step j (i + 2 * n4) hstep (by omega)),
            Function.update_noteq (index_ne start step j i hstep hji)]
          exact (hdone j hj').1
        · rw [Function.update_noteq (index_ne start step (j + 2 * n4) (i + 2 * n4) hstep
            (by omega)),
            Function.update_noteq (index_ne start step (j + 2 * n4) i hstep (by omega))]
          exact (hdone j hj').2
    · intro p hp1 hp2
      simp only [combineLoop, combineBody, ← hS, hnn4, hn2]
      rw [Function.update_noteq (index_ne start step p (i + 2 * n4) hstep (by omega)),
        Function.update_noteq (index_ne start step p i hstep (by omega))]
      exact hpend1 p (by omega) hp2
    · intro p hp1 hp2
      simp only [combineLoop, combineBody, ← hS, hnn4, hn2]
      rw [Function.update_noteq (index_ne start step p (i + 2 * n4) hstep (by omega)),
        Function.update_noteq (index_ne start step p i hstep (by omega))]
      exact hpend2 p (by omega) hp2
    · intro q hq
      simp only [combineLoop, combineBody, ← hS, hnn4, hn2]
      rw [Function.update_noteq (hq (i + 2 * n4) (by omega)),
        Function.update_noteq (hq i (by omega))]
      exact hframe q hq
    · intro s hs
      simp only [combineLoop, combineBody, ← hS, hnn4, hn2]
      constructor
      · intro h1
        by_cases hci : i < n4
        · exact absurd h1 (by omega)
        · have hmodi : i % n4 = i - n4 := by
            rw [show i = (i - n4) + n4 * 1 from by omega, Nat.add_mul_mod_self_left,
              Nat.mod_eq_of_lt (by omega)]; omega
          rw [hmodi]
          by_cases hsi : s = i - n4
          · subst hsi
            rw [Function.update_same, hsave]
            rw [show i - n4 + n4 + 2 * n4 = i + 2 * n4 from by omega]
          · rw [Function.update_noteq hsi]
            exact (hbuf s hs).1 (by omega)
      · intro h1 h2
        by_cases hci : i < n4
        · have hmodi : i % n4 = i := Nat.mod_eq_of_lt hci
          rw [hmodi]
          by_cases hsi : s = i
          · subst hsi
            rw [Function.update_same, hsave]
          · rw [Function.update_noteq hsi]
            exact (hbuf s hs).2 (by omega) (by omega)
        · have hmodi : i % n4 = i - n4 := by
            rw [show i = (i - n4) + n4 * 1 from by omega, Nat.add_mul_mod_self_left,
              Nat.mod_eq_of_lt (by omega)]; omega
          rw [hmodi]
          have hsi : s ≠ i - n4 := by
            intro hh
            subst hh
            omega
          rw [Function.update_noteq hsi]
          exact (hbuf s hs).2 (by omega) (by omega)

/-- Splitting a range sum into even- and odd-indexed halves. -/
theorem sum_range_even_odd (f : ℕ → ℂ) (N : ℕ) :
    ∑ j ∈ Finset.range (2 * N), f j =
      (∑ j ∈ Finset.range N, f (2 * j)) + ∑ j ∈ Finset.range N, f (2 * j + 1) := by
  induction N with
  | zero => simp
  | succ N IH =>
    rw [show 2 * (N + 1) = 2 * N + 1 + 1 from by ring, Finset.sum_range_succ,
      Finset.sum_range_succ, Finset.sum_range_succ, Finset.sum_range_succ, IH]
    ring

/-- The Cooley–Tukey butterfly, additive half: the length-`2N` exponential sum
at frequency `k` splits into even and odd sub-sums with squared twiddle. -/
theorem dft_even_odd_forward (exp : ℂ) (N : ℕ) (x : ℕ → ℂ) (k : ℕ) :
    ∑ j ∈ Finset.range (2 * N), x j * exp ^ (k * j) =
      (∑ j ∈ Finset.range N, x (2 * j) * (exp * exp) ^ (k * j)) +
      (∑ j ∈ Finset.range N, x (2 * j + 1) * (exp * exp) ^ (k * j)) * exp ^ k := by
  rw [sum_range_even_odd (fun j => x j * exp ^ (k * j)) N, Finset.sum_mul]
  congr 1
  · exact Finset.sum_congr rfl fun j _ => by ring
  · exact Finset.sum_congr rfl fun j _ => by ring

/-- The Cooley–Tukey butterfly, subtractive half, using `exp ^ N = -1`. -/
theorem dft_even_odd_shifted (exp : ℂ) (N : ℕ) (hexp : exp ^ N = -1) (x : ℕ → ℂ) (k : ℕ) :
    ∑ j ∈ Finset.range (2 * N), x j * exp ^ ((k + N) * j) =
      (∑ j ∈ Finset.range N, x (2 * j) * (exp * exp) ^ (k * j)) -
      (∑ j ∈ Finset.range N, x (2 * j + 1) * (exp * exp) ^ (k * j)) * exp ^ k := by
  rw [dft_even_odd_forward exp N x (k + N)]
  have hA : ∀ j ∈ Finset.range N,
      x (2 * j) * (exp * exp) ^ ((k + N) * j) = x (2 * j) * (exp * exp) ^ (k * j) := by
    intro j _
    have h1 : (exp * exp) ^ ((k + N) * j)
        = (exp * exp) ^ (k * j) * ((exp ^ N) * (exp ^ N)) ^ j := by ring
    rw [h1, hexp]
    norm_num
  have hB : ∀ j ∈ Finset.range N,
      x (2 * j + 1) * (exp * exp) ^ ((k + N) * j)
        = x (2 * j + 1) * (exp * exp) ^ (k * j) := by
    intro j _
    have h1 : (exp * exp) ^ ((k + N) * j)
        = (exp * exp) ^ (k * j) * ((exp ^ N) * (exp ^ N)) ^ j := by ring
    rw [h1, hexp]
    norm_num
  rw [Finset.sum_congr rfl hA, Finset.sum_congr rfl hB, pow_add, hexp]
  ring

/-- On a power-of-two stride, `basic_fft` computes the exponential-sum
transform with twiddle `exp` (forward or inverse DFT depending on `exp`),
leaving every position off the stride untouched, for any initial contents of
`transformed_xs` and of the scratch buffer. -/
theorem basic_fft_dft (xs : CBuf) (xsLen : ℕ) (hxs : isPow2 xsLen = true) :
    ∀ (m : ℕ) (exp : ℂ) (start step : ℕ), 1 ≤ step → exp ^ (2 ^ m) = -1 →
      ∀ T B : CBuf, ∃ T2 B2,
        basic_fft xs xsLen T B exp start step (2 ^ (m + 1)) = Except.ok (T2, B2) ∧
        (∀ k, k < 2 ^ (m + 1) → T2 (start + step * k) =
          ∑ j ∈ Finset.range (2 ^ (m + 1)), xs (start + step * j) * exp ^ (k * j)) ∧
        (∀ q, (∀ j, j < 2 ^ (m + 1) → q ≠ start + step * j) → T2 q = T q) := by
  intro m
  induction m with
  | zero =>
    intro exp start step hstep hexp T B
    have hexp1 : exp = -1 := by simpa using hexp
    have hrun : basic_fft xs xsLen T B exp start step (2 ^ (0 + 1)) =
        Except.ok (Function.update (Function.update T start (xs start + xs (start + step)))
          (start + step) (xs start - xs (start + step)), B) := by
      rw [basic_fft]
      rw [if_neg (not_not_intro ⟨rfl, hxs⟩)]
      rw [if_pos (by norm_num : (2:ℕ) ^ (0 + 1) = 2)]
    refine ⟨_, _, hrun, ?_, ?_⟩
    · intro k hk
      simp only [show (2:ℕ) ^ (0 + 1) = 2 from by norm_num] at hk ⊢
      rw [Finset.sum_range_succ, Finset.sum_range_succ, Finset.sum_range_zero]
      have hk2 : k = 0 ∨ k = 1 := by omega
      rcases hk2 with rfl | rfl
      · rw [show start + step * 0 = start from by omega]
        rw [Function.update_noteq (show start ≠ start + step from by omega),
          Function.update_same]
        simp
      · rw [show start + step * 1 = start + step from by omega, Function.update_same]
        simp only [Nat.mul_zero, Nat.add_zero, Nat.mul_one, pow_zero, mul_one]
        rw [hexp1]
        ring
    · intro q hq
      have h0 := hq 0 (by norm_num)
      have h1 := hq 1 (by norm_num)
      rw [show start + step * 0 = start from by omega] at h0
      rw [show start + step * 1 = start + step from by omega] at h1
      rw [Function.update_noteq h1, Function.update_noteq h0]
  | succ m IHm =>
    intro exp start step hstep hexp T B
    have hpowpos : (0:ℕ) < 2 ^ m := pow_pos (by norm_num) m
    have hNN : (2:ℕ) ^ (m + 1) = 2 * 2 ^ m := by ring
    have hNN2 : (2:ℕ) ^ (m + 1 + 1) = 2 * 2 ^ (m + 1) := by ring
    have hNN4 : (2:ℕ) ^ (m + 1 + 1) = 4 * 2 ^ m := by ring
    have hn2 : (2:ℕ) ^ (m + 1 + 1) / 2 = 2 ^ (m + 1) := by omega
    have hexp2 : (exp * exp) ^ (2 ^ m) = -1 := by
      rw [show (exp * exp) ^ (2 ^ m) = exp ^ (2 ^ m + 2 ^ m) from by rw [pow_add]; ring]
      rw [show 2 ^ m + 2 ^ m = 2 ^ (m + 1) from by omega]
      exact hexp
    obtain ⟨T1, B1, h1run, h1char, h1frame⟩ :=
      IHm (exp * exp) start (step * 2) (by omega) hexp2 T B
    obtain ⟨T2, B2, h2run, h2char, h2frame⟩ :=
      IHm (exp * exp) (start + step) (step * 2) (by omega) hexp2 T1 B1
    have hpos1 : ∀ j : ℕ, start + step * 2 * j = start + step * (2 * j) := by
      intro j; ring
    have hpos2 : ∀ j : ℕ, start + step + step * 2 * j = start + step * (2 * j + 1) := by
      intro j; ring
    have hE : ∀ kk, kk < 2 ^ (m + 1) → T2 (start + step * (2 * kk)) =
        ∑ j ∈ Finset.range (2 ^ (m + 1)),
          xs (start + step * (2 * j)) * (exp * exp) ^ (kk * j) := by
      intro kk hkk
      have hfr : T2 (start + step * (2 * kk)) = T1 (start + step * (2 * kk)) := by
        apply h2frame
        intro j hj hqe
        rw [hpos2 j] at hqe
        exact index_ne start step (2 * kk) (2 * j + 1) hstep (by omega) hqe
      rw [hfr, ← hpos1 kk, h1char kk hkk]
      exact Finset.sum_congr rfl fun j _ => by rw [hpos1 j]
    have hO : ∀ kk, kk < 2 ^ (m + 1) → T2 (start + step * (2 * kk + 1)) =
        ∑ j ∈ Finset.range (2 ^ (m + 1)),
          xs (start + step * (2 * j + 1)) * (exp * exp) ^ (kk * j) := by
      intro kk hkk
      rw [← hpos2 kk, h2char kk hkk]
      exact Finset.sum_congr rfl fun j _ => by rw [hpos2 j]
    obtain ⟨hLcur, hLdone, hLp1, hLp2, hLframe, hLbuf⟩ :=
      combineLoop_spec exp start step (2 ^ m) hstep (by omega) T2 B2 (2 * 2 ^ m) (by omega)
    have hrun : basic_fft xs xsLen T B exp start step (2 ^ (m + 1 + 1)) =
        Except.ok
          ((combineLoop exp start step (4 * 2 ^ m) (CombineState.mk T2 B2 1) (2 * 2 ^ m)).T,
           (combineLoop exp start step (4 * 2 ^ m)
              (CombineState.mk T2 B2 1) (2 * 2 ^ m)).B) := by
      rw [basic_fft]
      rw [if_neg (not_not_intro ⟨rfl, hxs⟩)]
      rw [if_neg (show ¬ (2:ℕ) ^ (m + 1 + 1) = 2 from by omega)]
      rw [dif_neg (show ¬ (2:ℕ) ^ (m + 1 + 1) < 2 from by omega)]
      rw [hn2, h1run]
      dsimp only
      rw [h2run]
      dsimp only
      rw [hNN4, show (2:ℕ) ^ (m + 1) = 2 * 2 ^ m from hNN]
    refine ⟨_, _, hrun, ?_, ?_⟩
    · intro k hk
      by_cases hklow : k < 2 ^ (m + 1)
      · have hd := (hLdone k (by omega)).1
        rw [hd, hE k hklow, hO k hklow]
        rw [hNN2]
        exact (dft_even_odd_forward exp (2 ^ (m + 1)) (fun j => xs (start + step * j)) k).symm
      · obtain ⟨k', rfl⟩ : ∃ k', k = k' + 2 ^ (m + 1) := ⟨k - 2 ^ (m + 1), by omega⟩
        have hd := (hLdone k' (by omega)).2
        rw [show k' + 2 * 2 ^ m = k' + 2 ^ (m + 1) from by omega] at hd
        rw [hd, hE k' (by omega), hO k' (by omega)]
        rw [hNN2]
        exact (dft_even_odd_shifted exp (2 ^ (m + 1)) hexp
          (fun j => xs (start + step * j)) k').symm
    · intro q hq
      have hLf : (combineLoop exp start step (4 * 2 ^ m)
          (CombineState.mk T2 B2 1) (2 * 2 ^ m)).T q = T2 q := by
        apply hLframe
        intro j hj
        exact hq j (by omega)
      have h2f : T2 q = T1 q := by
        apply h2frame
        intro j hj hqe
        rw [hpos2 j] at hqe
        exact hq (2 * j + 1) (by omega) hqe
      have h1f : T1 q = T q := by
        apply h1frame
        intro j hj hqe
        rw [hpos1 j] at hqe
        exact hq (2 * j) (by omega) hqe
      rw [hLf, h2f, h1f]

/-- The predicate `is_power_of_two` is invariant under doubling. -/
theorem isPow2_two_mul (k : ℕ) (hk : 1 ≤ k) : isPow2 (2 * k) = isPow2 k := by
  obtain ⟨k', rfl⟩ : ∃ k', k = k' + 1 := ⟨k - 1, by omega⟩
  rw [show 2 * (k' + 1) = 2 * k' + 2 from by ring]
  rw [isPow2]
  have h1 : (2 * k' + 2) % 2 = 0 := by omega
  have h2 : (2 * k' + 2) / 2 = k' + 1 := by omega
  simp [h1, h2]

/-- Powers of two satisfy `is_power_of_two`. -/
theorem isPow2_two_pow (k : ℕ) : isPow2 (2 ^ k) = true := by
  induction k with
  | zero => rw [pow_zero, isPow2]
  | succ k IH =>
    rw [pow_succ, mul_comm, isPow2_two_mul (2 ^ k) (Nat.one_le_pow k 2 (by norm_num)), IH]

/-- Both twiddle factors raised to the half length give `-1`. -/
theorem twiddle_pow_half (m : ℕ) (dir : Direction) :
    twiddle (2 ^ (m + 1)) dir ^ (2 ^ m) = -1 := by
  have hcast : ∀ sgn : ℝ, ((2 ^ m : ℕ) : ℂ) *
      (((2 * Real.pi / (((2 : ℕ) ^ (m + 1) : ℕ) : ℝ) * sgn : ℝ)) : ℂ)
      = ((Real.pi * sgn : ℝ) : ℂ) := by
    intro sgn
    have h2 : (((2 : ℕ) ^ (m + 1) : ℕ) : ℝ) = 2 * (2 : ℝ) ^ m := by
      push_cast
      ring
    push_cast [h2]
    have hne : (2 : ℝ) ^ m ≠ 0 := by positivity
    field_simp
    ring
  cases dir with
  | FORWARD =>
    rw [twiddle]
    rw [← Complex.exp_nat_mul]
    rw [show ((2 ^ m : ℕ) : ℂ) * ((((2 * Real.pi / (((2:ℕ) ^ (m + 1) : ℕ) : ℝ) *
        (-1) : ℝ)) : ℂ) * Complex.I)
        = (((Real.pi * (-1) : ℝ)) : ℂ) * Complex.I from by rw [← mul_assoc, hcast (-1)]]
    push_cast
    rw [show (Real.pi : ℂ) * (-1) * Complex.I = -((Real.pi : ℂ) * Complex.I) from by ring]
    rw [Complex.exp_neg, Complex.exp_pi_mul_I]
    norm_num
  | BACKWARD =>
    rw [twiddle]
    rw [← Complex.exp_nat_mul]
    rw [show ((2 ^ m : ℕ) : ℂ) * ((((2 * Real.pi / (((2:ℕ) ^ (m + 1) : ℕ) : ℝ) *
        1 : ℝ)) : ℂ) * Complex.I)
        = (((Real.pi * 1 : ℝ)) : ℂ) * Complex.I from by rw [← mul_assoc, hcast 1]]
    push_cast
    rw [mul_one, Complex.exp_pi_mul_I]

/-- On a power-of-two-length input, `fft` returns the exponential-sum
transform of the input with the direction's twiddle factor. -/
theorem fft_dft (self : FFTransformer) (xs : List ℂ) (dir : Direction) (m : ℕ)
    (hlen : xs.length = 2 ^ (m + 1)) :
    ∃ out self2, FFTransformer.fft self xs dir = Except.ok (out, self2) ∧
      out.length = xs.length ∧
      ∀ k, k < xs.length → out.getD k 0 =
        ∑ j ∈ Finset.range xs.length, xs.getD j 0 * twiddle xs.length dir ^ (k * j) := by
  have hp2 : (0:ℕ) < 2 ^ m := pow_pos (by norm_num) m
  have hNN : (2:ℕ) ^ (m + 1) = 2 * 2 ^ m := by ring
  have hgt : xs.length > 1 := by rw [hlen]; omega
  obtain ⟨T2, B2, hrun, hchar, _⟩ :=
    basic_fft_dft (fun i => xs.getD i 0) xs.length
      (by rw [hlen]; exact isPow2_two_pow (m + 1))
      m (twiddle xs.length dir) 0 1 (by omega)
      (by rw [hlen]; exact twiddle_pow_half m dir)
      (fun _ => 0)
      (fun i => (if self.buffer.length < xs.length / 4 then
          self.buffer ++ List.replicate (xs.length / 4 - self.buffer.length) 0
        else self.buffer).getD i 0)
  rw [← hlen] at hrun hchar
  simp only [twiddle] at hrun
  have hfft : FFTransformer.fft self xs dir = Except.ok ((List.range xs.length).map T2,
      FFTransformer.mk ((List.range (if self.buffer.length < xs.length / 4 then
          self.buffer ++ List.replicate (xs.length / 4 - self.buffer.length) 0
        else self.buffer).length).map B2)) := by
    simp only [FFTransformer.fft]
    rw [if_neg (not_not_intro hgt)]
    rw [hrun]
  refine ⟨_, _, hfft, by simp, ?_⟩
  intro k hk
  have hg : ((List.range xs.length).map T2).getD k 0 = T2 k := by
    rw [List.getD_eq_getElem _ _ (by simpa using hk)]
    simp
  rw [hg]
  have hc := hchar k hk
  simpa using hc

/-- Orthogonality of discrete exponentials: applying the transform with
twiddle `ω` to the transform with twiddle `ω⁻¹` recovers `n` times the
original coefficients. -/
theorem dft_inversion (n : ℕ) (_hn : 0 < n) (ω : ℂ) (hω : IsPrimitiveRoot ω n)
    (hω0 : ω ≠ 0) (x : ℕ → ℂ) (k : ℕ) (hk : k < n) :
    ∑ j ∈ Finset.range n, (∑ l ∈ Finset.range n, x l * (ω⁻¹) ^ (j * l)) * ω ^ (k * j)
      = (n : ℂ) * x k := by
  have hterm : ∀ l j : ℕ, (ω⁻¹) ^ (j * l) * ω ^ (k * j) = (ω ^ k * (ω ^ l)⁻¹) ^ j := by
    intro l j
    rw [mul_pow, ← pow_mul, ← inv_pow, inv_pow, ← pow_mul, inv_pow, Nat.mul_comm l j,
      Nat.mul_comm k j]
    ring
  have hsum : ∀ l, l < n → ∑ j ∈ Finset.range n, (ω⁻¹) ^ (j * l) * ω ^ (k * j)
      = if l = k then (n : ℂ) else 0 := by
    intro l hl
    rw [Finset.sum_congr rfl fun j _ => hterm l j]
    by_cases hlk : l = k
    · subst hlk
      rw [if_pos rfl]
      rw [mul_inv_cancel₀ (pow_ne_zero l hω0)]
      simp
    · rw [if_neg hlk]
      have hne : ω ^ k * (ω ^ l)⁻¹ ≠ 1 := by
        intro hu
        rw [mul_inv_eq_one₀ (pow_ne_zero l hω0)] at hu
        exact hlk (hω.pow_inj hl hk hu.symm)
      have hu_n : (ω ^ k * (ω ^ l)⁻¹) ^ n = 1 := by
        have hlne : ω ^ l ≠ 0 := pow_ne_zero l hω0
        field_simp
        rw [← pow_mul, ← pow_mul, Nat.mul_comm k n, Nat.mul_comm l n, pow_mul, pow_mul,
          hω.pow_eq_one, one_pow, one_pow]
      rw [geom_sum_eq hne n, hu_n]
      simp
  calc ∑ j ∈ Finset.range n, (∑ l ∈ Finset.range n, x l * (ω⁻¹) ^ (j * l)) * ω ^ (k * j)
      = ∑ j ∈ Finset.range n, ∑ l ∈ Finset.range n,
          x l * ((ω⁻¹) ^ (j * l) * ω ^ (k * j)) := by
        refine Finset.sum_congr rfl fun j _ => ?_
        rw [Finset.sum_mul]
        exact Finset.sum_congr rfl fun l _ => by ring
    _ = ∑ l ∈ Finset.range n, ∑ j ∈ Finset.range n,
          x l * ((ω⁻¹) ^ (j * l) * ω ^ (k * j)) := Finset.sum_comm
    _ = ∑ l ∈ Finset.range n, x l * ∑ j ∈ Finset.range n,
          (ω⁻¹) ^ (j * l) * ω ^ (k * j) := by
        exact Finset.sum_congr rfl fun l _ => (Finset.mul_sum _ _ _).symm
    _ = ∑ l ∈ Finset.range n, x l * (if l = k then (n : ℂ) else 0) := by
        refine Finset.sum_congr rfl fun l hl => ?_
        rw [hsum l (Finset.mem_range.mp hl)]
    _ = (n : ℂ) * x k := by
        rw [Finset.sum_eq_single k]
        · rw [if_pos rfl]
          ring
        · intro b _ hbk
          rw [if_neg hbk, mul_zero]
        · intro hk'
          exact absurd (Finset.mem_range.mpr hk) hk'

/-- The inverse-direction twiddle is a primitive `n`-th root of unity. -/
theorem twiddle_backward_primitive (n : ℕ) (hn : n ≠ 0) :
    IsPrimitiveRoot (twiddle n Direction.BACKWARD) n := by
  have h : twiddle n Direction.BACKWARD = Complex.exp (2 * Real.pi * Complex.I / n) := by
    simp only [twiddle]
    congr 1
    push_cast
    ring
  rw [h]
  exact Complex.isPrimitiveRoot_exp n hn

/-- The forward twiddle is the inverse of the backward twiddle. -/
theorem twiddle_forward_inv (n : ℕ) :
    twiddle n Direction.FORWARD = (twiddle n Direction.BACKWARD)⁻¹ := by
  simp only [twiddle, ← Complex.exp_neg]
  congr 1
  push_cast
  ring

/-- Twiddle factors are nonzero. -/
theorem twiddle_ne_zero (n : ℕ) (dir : Direction) : twiddle n dir ≠ 0 := by
  simp only [twiddle]
  exact Complex.exp_ne_zero _

/-- Claim C1. Round trip: for every power-of-two length `N = 2^(m+1) > 1` and
every complex input `xs` of that length, `fft` FORWARD then `fft` BACKWARD
then `normalise` recovers `xs` — exactly, in the exact complex arithmetic of
the model, hence a fortiori element-wise within relative error `1e-3` for
the floating-point code. -/
theorem C1_fft_roundtrip (m : ℕ) (s s1 s2 : FFTransformer) (xs y z : List ℂ)
    (hlen : xs.length = 2 ^ (m + 1))
    (hy : FFTransformer.fft s xs Direction.FORWARD = Except.ok (y, s1))
    (hz : FFTransformer.fft s1 y Direction.BACKWARD = Except.ok (z, s2)) :
    FFTransformer.normalise z = xs := by
  have hn0 : xs.length ≠ 0 := by rw [hlen]; positivity
  have hc0 : (xs.length : ℂ) ≠ 0 := Nat.cast_ne_zero.mpr hn0
  obtain ⟨outy, sty, hruny, hylen, hychar⟩ := fft_dft s xs Direction.FORWARD m hlen
  rw [hy, Except.ok.injEq, Prod.mk.injEq] at hruny
  obtain ⟨hy1, _⟩ := hruny
  subst hy1
  obtain ⟨outz, stz, hrunz, hzlen, hzchar⟩ :=
    fft_dft s1 y Direction.BACKWARD m (hylen.trans hlen)
  rw [hz, Except.ok.injEq, Prod.mk.injEq] at hrunz
  obtain ⟨hz1, _⟩ := hrunz
  subst hz1
  rw [hylen] at hzchar hzlen
  have hzt : ∀ k, k < xs.length → z.getD k 0 = (xs.length : ℂ) * xs.getD k 0 := by
    intro k hk
    rw [hzchar k hk]
    rw [Finset.sum_congr rfl fun j hj => by
      rw [hychar j (Finset.mem_range.mp hj)]]
    rw [Finset.sum_congr rfl fun j _ => by
      rw [twiddle_forward_inv xs.length]]
    exact dft_inversion xs.length (by omega) (twiddle xs.length Direction.BACKWARD)
      (twiddle_backward_primitive xs.length hn0)
      (twiddle_ne_zero xs.length Direction.BACKWARD) (fun l => xs.getD l 0) k hk
  have hnl : (FFTransformer.normalise z).length = xs.length := by
    simp [FFTransformer.normalise, hzlen]
  apply List.ext_getElem hnl
  intro k h1 h2
  simp only [FFTransformer.normalise, List.getElem_map]
  have hkz : k < z.length := by omega
  rw [← List.getD_eq_getElem z 0 hkz, hzt k h2, hzlen]
  rw [List.getD_eq_getElem xs 0 h2]
  exact mul_div_cancel_left₀ _ hc0

/-- Witness for C1: round trip at the concrete input `[1, 0]` (length 2). -/
theorem C1_witness :
    ([1, 0] : List ℂ).length = 2 ^ (0 + 1) ∧
    FFTransformer.fft (FFTransformer.mk []) [1, 0] Direction.FORWARD =
      Except.ok ([1, 1], FFTransformer.mk []) ∧
    FFTransformer.fft (FFTransformer.mk []) [1, 1] Direction.BACKWARD =
      Except.ok ([2, 0], FFTransformer.mk []) ∧
    FFTransformer.normalise [2, 0] = [1, 0] := by
  have h1 : FFTransformer.fft (FFTransformer.mk []) [1, 0] Direction.FORWARD =
      Except.ok ([1, 1], FFTransformer.mk []) := by
    simp [FFTransformer.fft, basic_fft, isPow2, Function.update, List.getD, List.range_succ]
  have h2 : FFTransformer.fft (FFTransformer.mk []) [1, 1] Direction.BACKWARD =
      Except.ok ([2, 0], FFTransformer.mk []) := by
    simp [FFTransformer.fft, basic_fft, isPow2, Function.update, List.getD, List.range_succ]
    norm_num
  exact ⟨by norm_num, h1, h2,
    C1_fft_roundtrip 0 (FFTransformer.mk []) (FFTransformer.mk []) (FFTransformer.mk [])
      [1, 0] [1, 1] [2, 0] (by norm_num) h1 h2⟩
